import Mathlib

/-!
Shallow embedding of the read-level filter and region-projection engine of
wgbs_tools (src/python/view.py and cview.py), together with proofs about the
spec claims for this code.

Modelling conventions:
* A pandas DataFrame of pat records is a `List Read`, kept in row order.
* Python integers are `Int`; pattern strings are `List Char`; string slicing
  `pat[:k]` (with possibly negative `k`) is `pySliceTo`.
* `np.random.binomial(count, p)` is modelled as binomial thinning driven by an
  explicit stream `u : Nat → Nat → ℚ` of uniform draws in `[0,1)`: read number
  `i` keeps each of its `count` observations `j` iff `u i j < p`.
* `pandas.sort_values(by=['start', 'pat'])` is modelled as a stable insertion
  sort by the key `(start, pat)` (lexicographic on the pattern).
* The multiprocessing pool is modelled by its observable behaviour: the driver
  collects worker results from the task list in submission order
  (`processes.append` / iteration over `processes`), so completion order of the
  workers does not enter the model.
-/

namespace WgbsView

/-- One read record of a pat file: chromosome, 1-based start site index,
methylation pattern over the alphabet `.`, `C`, `T`, an observation count and
optional extra tag columns (columns 5+). -/
structure Read where
  chrom : String
  start : Int
  pat : List Char
  count : Nat
  tags : List String
deriving Repr, DecidableEq

/-- The filter configuration of `ViewPat`: `--strict`, `--strip`, `--min_len`
and the optional `--sub_sample` rate. -/
structure Config where
  strict : Bool
  strip : Bool
  minLen : Nat
  subSample : Option ℚ
deriving Repr, DecidableEq

/-- Python string slice `p[:k]` for an arbitrary integer bound `k`:
a negative `k` counts from the right end, and out-of-range bounds clamp. -/
def pySliceTo (k : Int) (l : List Char) : List Char :=
  if k < 0 then l.take ((l.length : Int) + k).toNat else l.take k.toNat

/-- One step of `ViewPat.strict_reads` (view.py lines 56-63) on a single row:
if the read starts before the interval, drop its leading `start - rstart`
characters and move its start to the interval start; then, if the (possibly
updated) end exceeds the interval end, slice the pattern to `pat[:end - start]`
with Python slice semantics. -/
def strictRead (s e : Int) (r : Read) : Read :=
  let r1 := if r.start < s then
      { r with pat := r.pat.drop (s - r.start).toNat, start := s }
    else r
  if r1.start + (r1.pat.length : Int) > e then
    { r1 with pat := pySliceTo (e - r1.start) r1.pat }
  else r1

/-- `ViewPat.strict_reads` (view.py lines 53-64): trim every row of the frame
against the interval `[s, e)`.  No row is dropped here. -/
def strict_reads (s e : Int) (df : List Read) : List Read :=
  df.map (strictRead s e)

/-- The covered interval `[start, start + len pat)` of a read is contained in
the interval `[s, e)` (an empty pattern covers the empty set, which is
contained in anything). -/
def coveredSub (s e : Int) (r : Read) : Prop :=
  r.pat = [] ∨ (s ≤ r.start ∧ r.start + (r.pat.length : Int) ≤ e)

instance : ∀ s e r, Decidable (coveredSub s e r) := fun s e r => by
  unfold coveredSub; infer_instance

/-- Lexicographic comparison of two patterns, the order `sort -k3,3` and
`pandas.sort_values` use on the `pat` column. -/
def patLe : List Char → List Char → Bool
  | [], _ => true
  | _ :: _, [] => false
  | a :: as, b :: bs => if a < b then true else if b < a then false else patLe as bs

/-- The sort key used by `sort_values(by=['start', 'pat'])`: start ascending,
then pattern lexicographically ascending. -/
def readLE (a b : Read) : Prop :=
  a.start < b.start ∨ (a.start = b.start ∧ patLe a.pat b.pat = true)

instance : DecidableRel readLE := fun a b => by
  unfold readLE; infer_instance

/-- The padding character test used by `rstrip('.')` and `lstrip('.')`. -/
def isDot (c : Char) : Bool := c == '.'

/-- Right-strip of one row: `df['pat'].str.rstrip('.')` (view.py line 73). -/
def rstripRead (r : Read) : Read :=
  { r with pat := r.pat.rdropWhile isDot }

/-- The row function `foo` of `ViewPat.strip_reads` (view.py lines 78-83):
left-strip the dots and advance `start` by the number of removed characters. -/
def lstripRead (r : Read) : Read :=
  let newpat := r.pat.dropWhile isDot
  { r with
      start := r.start + ((r.pat.length : Int) - (newpat.length : Int)),
      pat := newpat }

/-- The conditional application `df.loc[cond] = df[cond].apply(foo, axis=1)`
(view.py lines 85-86): rows whose pattern starts with a dot are left-stripped,
the others are unchanged. -/
def lstripCond (r : Read) : Read :=
  if r.pat.head? = some '.' then lstripRead r else r

/-- `ViewPat.strip_reads` (view.py lines 71-88): right-strip the dots, drop
rows whose pattern became empty, left-strip the dots of rows that start with a
dot, and sort by `(start, pat)`. -/
def strip_reads (df : List Read) : List Read :=
  ((((df.map rstripRead).filter (fun r => !r.pat.isEmpty)).map lstripCond)).insertionSort readLE

/-- A binomial draw realised as thinning: out of `n` observations, keep
observation `j` iff the uniform draw `u j ∈ [0,1)` falls below `p`. -/
def binomialDraw (p : ℚ) (u : Nat → ℚ) (n : Nat) : Nat :=
  ((List.range n).filter (fun j => decide (u j < p))).length

/-- Row-by-row body of `ViewPat.sample_reads` (view.py lines 66-69): replace
each count by a binomial draw and drop rows whose count became 0.  The first
argument of `u` is the row number, used to make the draws of distinct rows
independent. -/
def sampleGo (p : ℚ) (u : Nat → Nat → ℚ) : Nat → List Read → List Read
  | _, [] => []
  | i, r :: rs =>
    if binomialDraw p (u i) r.count = 0 then sampleGo p u (i + 1) rs
    else { r with count := binomialDraw p (u i) r.count } :: sampleGo p u (i + 1) rs

/-- `ViewPat.sample_reads` (view.py lines 66-69). -/
def sample_reads (p : ℚ) (u : Nat → Nat → ℚ) (df : List Read) : List Read :=
  sampleGo p u 0 df

/-- The overlap pre-filter of `ViewPat.perform_view` (view.py lines 96-98):
when a site interval is known, keep the rows with
`start + len(pat) > intervalStart`; otherwise keep everything. -/
def prefilter (sites : Option (Int × Int)) (df : List Read) : List Read :=
  match sites with
  | some (s, _) => df.filter (fun r => decide (s < r.start + (r.pat.length : Int)))
  | none => df

/-- The error raised by `strict_reads` when `gr.sites` is `None`:
`start, end = self.gr.sites` fails to unpack. -/
def strictNoneMsg : String := "TypeError: cannot unpack non-iterable NoneType object"

/-- The `--strict` stage of `perform_view` (view.py lines 100-101): when the
flag is set, `strict_reads` runs unconditionally and needs `gr.sites`. -/
def applyStrict (strict : Bool) (sites : Option (Int × Int)) (df : List Read) :
    Except String (List Read) :=
  if strict then
    match sites with
    | some (s, e) => .ok (strict_reads s e df)
    | none => .error strictNoneMsg
  else .ok df

/-- The `--strip` stage of `perform_view` (view.py lines 102-103). -/
def applyStrip (strip : Bool) (df : List Read) : List Read :=
  if strip then strip_reads df else df

/-- The `--min_len` stage of `perform_view` (view.py lines 104-105): the
length filter runs only when `min_len > 1`. -/
def applyMinLen (minLen : Nat) (df : List Read) : List Read :=
  if 1 < minLen then df.filter (fun r => decide (minLen ≤ r.pat.length)) else df

/-- The `--sub_sample` stage of `perform_view` (view.py lines 106-107).  The
guard is the Python truthiness test `if self.sub_sample:`, which is false both
for `None` and for the rate `0.0`. -/
def applySample (sub : Option ℚ) (u : Nat → Nat → ℚ) (df : List Read) : List Read :=
  match sub with
  | some p => if p = 0 then df else sample_reads p u df
  | none => df

/-- `ViewPat.perform_view` (view.py lines 90-109): an empty frame is returned
immediately; otherwise the stages run in order: overlap pre-filter, strict
trimming, stripping, minimum-length filter, sub-sampling. -/
def perform_view (cfg : Config) (sites : Option (Int × Int)) (u : Nat → Nat → ℚ)
    (reads : List Read) : Except String (List Read) :=
  if reads.isEmpty then .ok [] else
    match applyStrict cfg.strict sites (prefilter sites reads) with
    | .error msg => .error msg
    | .ok df2 =>
        .ok (applySample cfg.subSample u (applyMinLen cfg.minLen (applyStrip cfg.strip df2)))

/-- The shape of the shell command built by `ViewPat.build_cmd` (view.py lines
42-51): either decompress the whole file, or a tabix query
`chrom:lo-hi` whose bounds are inclusive on both sides. -/
inductive PatCmd where
  | wholeFile : PatCmd
  | range : String → Int → Int → PatCmd
deriving Repr, DecidableEq

/-- `ViewPat.build_cmd` (view.py lines 42-51): with no chromosome the whole
file is read; otherwise the tabix query is
`chrom : max(1, s - MAX_PAT_LEN) - (e - 1)`. -/
def build_cmd (maxPatLen : Int) (gr : Option (String × Int × Int)) : PatCmd :=
  match gr with
  | none => .wholeFile
  | some (c, s, e) => .range c (max 1 (s - maxPatLen)) (e - 1)

/-- Membership of a site position in the span a command queries. -/
def inSpan (cmd : PatCmd) (p : Int) : Prop :=
  match cmd with
  | .wholeFile => True
  | .range _ lo hi => lo ≤ p ∧ p ≤ hi

instance : ∀ cmd p, Decidable (inSpan cmd p) := fun cmd p => by
  cases cmd <;> · unfold inSpan; infer_instance

/-- Split a list into consecutive chunks.  Both call sites of the repository
pass a positive chunk size (`bigstep = 100` and `max(1, n // threads)`), for
which `max 1 step = step`; the inner `max` only forces termination. -/
def chunksOf {α : Type*} (step : Nat) (l : List α) : List (List α) :=
  if l.isEmpty then []
  else l.take (max 1 step) :: chunksOf step (l.drop (max 1 step))
termination_by l.length
decreasing_by
  rename_i h
  have h1 : l ≠ [] := by simpa [List.isEmpty_iff] using h
  have h2 : 0 < l.length := List.length_pos.mpr h1
  have h3 : 1 ≤ max 1 step := le_max_left _ _
  simp only [List.length_drop]
  omega

/-- Python `range(i, n, step)` for a positive step (both call sites pass a
positive step; the inner `max` only forces termination). -/
def rangeStep (i n step : Nat) : List Nat :=
  if i < n then i :: rangeStep (i + max 1 step) n step else []
termination_by n - i
decreasing_by
  have h3 : 1 ≤ max 1 step := le_max_left _ _
  omega

/-- One worker task, `view_pat_mult_proc` (view.py lines 127-142): process the
regions `grs[i : i + step]` in order.  A region whose `GenomicRegion`
construction raises `IllegalArgumentError` yields `none` (no CpGs) and is
recorded with an empty output; a processed region yields its data frame. -/
def view_pat_mult_proc (process : String → Option (List Read)) (grs : List String)
    (i step : Nat) : List (String × Option (List Read)) :=
  ((grs.drop i).take step).map (fun g => (g, process g))

/-- The per-region results of `view_pat_bed_multiprocess` (view.py lines
155-191) in the order the driver writes them: super-chunks of 100 regions, a
task for every `step = max(1, n // threads)` slice of a super-chunk, and the
task results read back in submission order. -/
def driverResults (process : String → Option (List Read)) (regions : List String)
    (threads : Nat) : List (String × Option (List Read)) :=
  (chunksOf 100 regions).flatMap (fun chunk =>
    (rangeStep 0 chunk.length (max 1 (chunk.length / threads))).flatMap (fun i =>
      view_pat_mult_proc process chunk i (max 1 (chunk.length / threads))))

/-- The label a region result carries: the region itself, or the explicit
no-data marker `grs[i] + ' - No CpGs'` (view.py line 138). -/
def regionLabel (entry : String × Option (List Read)) : String :=
  match entry.2 with
  | some _ => entry.1
  | none => entry.1 ++ " - No CpGs"

/-- One output line of `df.to_csv(sep='\t', index=None, header=None)`. -/
def readLine (r : Read) : String :=
  r.chrom ++ "\t" ++ toString r.start ++ "\t" ++ String.mk r.pat ++ "\t" ++ toString r.count
    ++ String.join (r.tags.map (fun t => "\t" ++ t)) ++ "\n"

/-- The csv block of a data frame; empty iff the frame is empty. -/
def readsCsv (df : List Read) : String :=
  String.join (df.map readLine)

/-- What the writer loop (view.py lines 184-191) emits for one region result:
the label line only under `--print_region`, then the region's csv block (a
no-CpG region has the empty block, which `if not reads: continue` skips). -/
def entryOutput (printRegion : Bool) (entry : String × Option (List Read)) : String :=
  (if printRegion then regionLabel entry ++ "\n" else "") ++
    (match entry.2 with
     | some df => readsCsv df
     | none => "")

/-- The merged output stream of `view_pat_bed_multiprocess`. -/
def view_pat_bed_multiprocess (process : String → Option (List Read)) (regions : List String)
    (threads : Nat) (printRegion : Bool) : String :=
  String.join ((driverResults process regions threads).map (entryOutput printRegion))

/-! ### The sort key is a total preorder -/

theorem patLe_cons_iff {a b : Char} {as bs : List Char} :
    patLe (a :: as) (b :: bs) = true ↔ a < b ∨ (a = b ∧ patLe as bs = true) := by
  show (if a < b then true else if b < a then false else patLe as bs) = true ↔ _
  split_ifs with h1 h2
  · simp [h1]
  · constructor
    · intro h; cases h
    · rintro (h | ⟨he, _⟩)
      · exact absurd h h1
      · exact absurd (he ▸ h2) (lt_irrefl _)
  · have he : a = b := le_antisymm (not_lt.mp h2) (not_lt.mp h1)
    simp [h1, he]

theorem patLe_nil_left (b : List Char) : patLe [] b = true := by
  unfold patLe; rfl

theorem patLe_total (a : List Char) : ∀ b, patLe a b = true ∨ patLe b a = true := by
  induction a with
  | nil => intro b; exact Or.inl (patLe_nil_left b)
  | cons x xs ih =>
    intro b
    cases b with
    | nil => exact Or.inr (patLe_nil_left _)
    | cons y ys =>
      rcases lt_trichotomy x y with h | h | h
      · exact Or.inl (patLe_cons_iff.mpr (Or.inl h))
      · subst h
        rcases ih ys with hp | hp
        · exact Or.inl (patLe_cons_iff.mpr (Or.inr ⟨rfl, hp⟩))
        · exact Or.inr (patLe_cons_iff.mpr (Or.inr ⟨rfl, hp⟩))
      · exact Or.inr (patLe_cons_iff.mpr (Or.inl h))

theorem patLe_trans : ∀ {a b c : List Char},
    patLe a b = true → patLe b c = true → patLe a c = true := by
  intro a
  induction a with
  | nil => intro b c _ _; exact patLe_nil_left c
  | cons x xs ih =>
    intro b c hab hbc
    cases b with
    | nil => simp [patLe] at hab
    | cons y ys =>
      cases c with
      | nil => simp [patLe] at hbc
      | cons z zs =>
        rw [patLe_cons_iff] at hab hbc ⊢
        rcases hab with h1 | ⟨h1, p1⟩ <;> rcases hbc with h2 | ⟨h2, p2⟩
        · exact Or.inl (lt_trans h1 h2)
        · exact Or.inl (h2 ▸ h1)
        · exact Or.inl (h1 ▸ h2)
        · exact Or.inr ⟨h1.trans h2, ih p1 p2⟩

instance : IsTotal Read readLE := by
  constructor
  intro a b
  unfold readLE
  rcases lt_trichotomy a.start b.start with h | h | h
  · exact Or.inl (Or.inl h)
  · rcases patLe_total a.pat b.pat with hp | hp
    · exact Or.inl (Or.inr ⟨h, hp⟩)
    · exact Or.inr (Or.inr ⟨h.symm, hp⟩)
  · exact Or.inr (Or.inl h)

instance : IsTrans Read readLE := by
  constructor
  intro a b c hab hbc
  unfold readLE at hab hbc ⊢
  rcases hab with h1 | ⟨h1, p1⟩ <;> rcases hbc with h2 | ⟨h2, p2⟩
  · exact Or.inl (lt_trans h1 h2)
  · exact Or.inl (h2 ▸ h1)
  · exact Or.inl (h1 ▸ h2)
  · exact Or.inr ⟨h1.trans h2, patLe_trans p1 p2⟩

/-- `readLE` only looks at the `start` and `pat` fields. -/
theorem readLE_congr {a b a2 b2 : Read} (hs : a.start = a2.start) (hp : a.pat = a2.pat)
    (hs2 : b.start = b2.start) (hp2 : b.pat = b2.pat) : readLE a b ↔ readLE a2 b2 := by
  unfold readLE
  rw [hs, hp, hs2, hp2]

/-! ### Helper lemmas about stripping -/

theorem dropWhile_head?_false {p : Char → Bool} {l : List Char} {a : Char}
    (h : (l.dropWhile p).head? = some a) : p a = false := by
  cases hl : l.dropWhile p with
  | nil => rw [hl] at h; cases h
  | cons x xs =>
    have hne : l.dropWhile p ≠ [] := by rw [hl]; simp
    have hx := List.head_dropWhile_not p l hne
    rw [hl] at h
    have : a = x := by simpa using h.symm
    subst this
    simpa [hl] using hx

theorem map_eq_self_of {α : Type*} {f : α → α} {l : List α} (h : ∀ a ∈ l, f a = a) :
    l.map f = l := by
  induction l with
  | nil => rfl
  | cons x xs ih =>
    simp only [List.map_cons, h x (List.mem_cons_self x xs)]
    rw [ih (fun a ha => h a (List.mem_cons_of_mem x ha))]

/-- Left-stripping preserves the no-trailing-padding property. -/
theorem rdropWhile_dropWhile_self {p : Char → Bool} {l : List Char}
    (h : l.rdropWhile p = l) : (l.dropWhile p).rdropWhile p = l.dropWhile p := by
  rw [List.rdropWhile_eq_self_iff] at h ⊢
  intro hl
  obtain ⟨t, ht⟩ := List.dropWhile_suffix p (l := l)
  have hlne : l ≠ [] := by
    intro h0
    rw [h0] at hl
    exact hl (by simp)
  have e1 : (l.dropWhile p).getLast? = l.getLast? := by
    conv_rhs => rw [← ht]
    exact (List.getLast?_append_of_ne_nil t hl).symm
  rw [List.getLast?_eq_getLast_of_ne_nil hl, List.getLast?_eq_getLast_of_ne_nil hlne] at e1
  have e2 : (l.dropWhile p).getLast hl = l.getLast hlne := by
    exact Option.some.inj e1
  rw [e2]
  exact h hlne

/-- The shape of every read surviving one pass of `strip_reads`: non-empty
pattern, no removable leading padding, no removable trailing padding. -/
theorem mem_strip_reads_shape {df : List Read} {r : Read} (hr : r ∈ strip_reads df) :
    r.pat ≠ [] ∧ r.pat.dropWhile isDot = r.pat ∧ r.pat.rdropWhile isDot = r.pat := by
  unfold strip_reads at hr
  rw [List.mem_insertionSort] at hr
  obtain ⟨r2, hr2, hre⟩ := List.mem_map.mp hr
  have h2 := List.mem_filter.mp hr2
  obtain ⟨r0, _, hr0e⟩ := List.mem_map.mp h2.1
  have hne : r2.pat ≠ [] := by
    have := h2.2
    simpa [List.isEmpty_iff] using this
  have htrail : r2.pat.rdropWhile isDot = r2.pat := by
    rw [← hr0e]
    exact List.rdropWhile_idempotent isDot r0.pat
  subst hre
  unfold lstripCond
  split_ifs with hcond
  · refine ⟨?_, ?_, ?_⟩
    · show r2.pat.dropWhile isDot ≠ []
      intro hnil
      have hall := List.dropWhile_eq_nil_iff.mp hnil
      have : r2.pat.rdropWhile isDot = [] := List.rdropWhile_eq_nil_iff.mpr hall
      rw [htrail] at this
      exact hne this
    · exact List.dropWhile_idempotent isDot r2.pat
    · exact rdropWhile_dropWhile_self htrail
  · refine ⟨hne, ?_, htrail⟩
    cases hp : r2.pat with
    | nil => exact absurd hp hne
    | cons x xs =>
      have hx : ¬ isDot x = true := by
        intro hdot
        apply hcond
        rw [hp]
        have : x = '.' := by simpa [isDot] using hdot
        simp [this]
      simp [List.dropWhile_cons, hx]

theorem rstripRead_eq_self {r : Read} (h : r.pat.rdropWhile isDot = r.pat) :
    rstripRead r = r := by
  unfold rstripRead
  rw [h]

theorem lstripCond_eq_self {r : Read} (_hne : r.pat ≠ []) (h : r.pat.dropWhile isDot = r.pat) :
    lstripCond r = r := by
  unfold lstripCond
  rw [if_neg]
  intro hhead
  have hdot : isDot '.' = false := dropWhile_head?_false (h.symm ▸ hhead)
  simp [isDot] at hdot

/-- The output of `strip_reads` is sorted by `(start, pat)`. -/
theorem strip_reads_sorted (df : List Read) : List.Sorted readLE (strip_reads df) :=
  List.sorted_insertionSort readLE _

/-- C4: `strip_reads` is idempotent, and every read surviving one application
has a non-empty pattern that neither starts nor ends with a padding dot. -/
theorem strip_reads_idempotent (df : List Read) :
    strip_reads (strip_reads df) = strip_reads df ∧
      ∀ r ∈ strip_reads df, r.pat ≠ [] ∧ r.pat.head? ≠ some '.' ∧ r.pat.getLast? ≠ some '.' := by
  have hshape := fun r (hr : r ∈ strip_reads df) => mem_strip_reads_shape hr
  have key : ∀ (l : List Read),
      (∀ r ∈ l, r.pat ≠ [] ∧ r.pat.dropWhile isDot = r.pat ∧ r.pat.rdropWhile isDot = r.pat) →
      List.Sorted readLE l → strip_reads l = l := by
    intro l hsh hsorted
    unfold strip_reads
    rw [map_eq_self_of (fun r hr => rstripRead_eq_self (hsh r hr).2.2)]
    rw [List.filter_eq_self.mpr
      (fun r hr => by simpa [List.isEmpty_iff] using (hsh r hr).1)]
    rw [map_eq_self_of (fun r hr => lstripCond_eq_self (hsh r hr).1 (hsh r hr).2.1)]
    exact hsorted.insertionSort_eq
  constructor
  · exact key (strip_reads df) hshape (strip_reads_sorted df)
  · intro r hr
    obtain ⟨hne, hlead, htrail⟩ := hshape r hr
    refine ⟨hne, ?_, ?_⟩
    · intro hhead
      have hdot : isDot '.' = false := dropWhile_head?_false (hlead.symm ▸ hhead)
      simp [isDot] at hdot
    · intro hlast
      rw [List.rdropWhile_eq_self_iff] at htrail
      have := htrail hne
      rw [List.getLast?_eq_getLast_of_ne_nil hne] at hlast
      have heq : r.pat.getLast hne = '.' := Option.some.inj hlast
      rw [heq] at this
      simp [isDot] at this

/-! ### Helper lemmas about strict trimming -/

theorem pySliceTo_of_nonneg {k : Int} (hk : 0 ≤ k) (l : List Char) :
    pySliceTo k l = l.take k.toNat := by
  unfold pySliceTo
  rw [if_neg (not_lt.mpr hk)]

theorem length_pySliceTo_le {k : Int} (hk : 0 ≤ k) (l : List Char) :
    ((pySliceTo k l).length : Int) ≤ k := by
  rw [pySliceTo_of_nonneg hk]
  have h1 : (l.take k.toNat).length ≤ k.toNat := by
    simp [List.length_take]
  calc ((l.take k.toNat).length : Int) ≤ (k.toNat : Int) := by exact_mod_cast h1
    _ = k := Int.toNat_of_nonneg hk

/-- Core fact behind the boundary claim: once a read starts at or before the
interval end, `strictRead` clips its covered interval into `[s, e)`. -/
theorem strictRead_covered {s e : Int} (r : Read) (hse : s ≤ e) (hr : r.start ≤ e) :
    s ≤ (strictRead s e r).start ∧
      (strictRead s e r).start + ((strictRead s e r).pat.length : Int) ≤ e := by
  unfold strictRead
  by_cases h1 : r.start < s
  · rw [if_pos h1]
    by_cases h2 : s + (((r.pat.drop (s - r.start).toNat)).length : Int) > e
    · rw [if_pos (by simpa using h2)]
      refine ⟨le_refl s, ?_⟩
      have := length_pySliceTo_le (k := e - s) (by omega) (r.pat.drop (s - r.start).toNat)
      simpa using by omega
    · rw [if_neg (by simpa using h2)]
      exact ⟨le_refl s, by simpa using not_lt.mp h2⟩
  · rw [if_neg h1]
    by_cases h2 : r.start + ((r.pat.length : Int)) > e
    · rw [if_pos h2]
      refine ⟨not_lt.mp h1, ?_⟩
      have := length_pySliceTo_le (k := e - r.start) (by omega) r.pat
      simpa using by omega
    · rw [if_neg h2]
      exact ⟨not_lt.mp h1, not_lt.mp h2⟩

/-- C1 (amended): for every interval `[s, e)` with `s ≤ e` and every read
starting at or before `e` — as all reads returned by the tabix range query do,
since the query stops at position `e - 1` — the read that `strict_reads`
produces covers a subset of `[s, e)`. -/
theorem strict_reads_covered_of_start_le (s e : Int) (reads : List Read)
    (hse : s ≤ e) (hstart : ∀ r ∈ reads, r.start ≤ e) :
    ∀ r2 ∈ strict_reads s e reads, coveredSub s e r2 := by
  intro r2 hr2
  obtain ⟨r, hr, hre⟩ := List.mem_map.mp hr2
  subst hre
  exact Or.inr (strictRead_covered r hse (hstart r hr))

/-- Witness for C1 (amended), the spec scenario: read `chr1 100 CC.T 5` against
the interval `[101, 103)` is clipped to `chr1 101 C. 5`, covered by the
interval. -/
theorem strict_reads_covered_of_start_le_witness :
    coveredSub 101 103 ⟨"chr1", 101, ['C', '.'], 5, []⟩ :=
  strict_reads_covered_of_start_le 101 103 [⟨"chr1", 100, ['C', 'C', '.', 'T'], 5, []⟩]
    (by decide) (by decide) ⟨"chr1", 101, ['C', '.'], 5, []⟩ (by decide)

/-- Counterexample to C1 as stated: a read that starts after the interval end
(possible because the overlap pre-filter only checks the left boundary) keeps
sites outside `[s, e)` after `strict_reads`.  With `s = 1`, `e = 5` and the
read `chr1 6 CCT 1`, the Python slice `pat[:5 - 6] = pat[:-1]` leaves the
pattern `CC`, so the surviving read covers `[6, 8) ⊄ [1, 5)`. -/
theorem strict_reads_escapes_interval_cex :
    strict_reads 1 5 [⟨"chr1", 6, ['C', 'C', 'T'], 1, []⟩] =
        [⟨"chr1", 6, ['C', 'C'], 1, []⟩] ∧
      ¬ coveredSub 1 5 ⟨"chr1", 6, ['C', 'C'], 1, []⟩ := by
  decide

/-! ### The overlap pre-filter -/

/-- C2 (amended): for every strict flag, interval and input, the pre-filter of
`perform_view` keeps exactly the reads with `start + len(pat) > intervalStart`,
independent of strict mode; it performs no check against the right boundary
`intervalEnd`. -/
theorem perform_view_prefilter_left_only (b : Bool) (s e : Int) (u : Nat → Nat → ℚ)
    (reads : List Read) :
    perform_view ⟨b, false, 1, none⟩ (some (s, e)) u reads =
      .ok ((if b then strict_reads s e else id)
        (reads.filter (fun r => decide (s < r.start + (r.pat.length : Int))))) := by
  unfold perform_view prefilter applyStrict applyStrip applyMinLen applySample
  by_cases hre : reads.isEmpty
  · rw [if_pos hre]
    have hnil : reads = [] := List.isEmpty_iff.mp hre
    subst hnil
    cases b <;> simp [strict_reads]
  · rw [if_neg hre]
    cases b <;> simp

/-- Counterexample to C2 as stated: the read `chr1 10 CT 1` starts at
`10 ≥ 5 = intervalEnd`, so its covered interval `[10, 12)` does not overlap
`[1, 5)` at all, yet the pipeline's pre-filter does not drop it: with all
stages off the read is returned unchanged. -/
theorem prefilter_keeps_right_nonoverlap_cex :
    perform_view ⟨false, false, 1, none⟩ (some (1, 5)) (fun _ _ => 0)
        [⟨"chr1", 10, ['C', 'T'], 1, []⟩] = .ok [⟨"chr1", 10, ['C', 'T'], 1, []⟩] ∧
      (5 : Int) ≤ (⟨"chr1", 10, ['C', 'T'], 1, []⟩ : Read).start := by
  exact ⟨rfl, by norm_num⟩

/-! ### The sub-sampler -/

theorem binomialDraw_one {u : Nat → ℚ} (hu : ∀ j, u j < 1) (n : Nat) :
    binomialDraw 1 u n = n := by
  unfold binomialDraw
  rw [List.filter_eq_self.mpr (fun j _ => by simpa using hu j)]
  exact List.length_range n

theorem binomialDraw_zero {u : Nat → ℚ} (hu : ∀ j, 0 ≤ u j) (n : Nat) :
    binomialDraw 0 u n = 0 := by
  unfold binomialDraw
  have hnil : (List.range n).filter (fun j => decide (u j < 0)) = [] := by
    rw [List.filter_eq_nil_iff]
    intro j _
    simpa using not_lt.mpr (hu j)
  rw [hnil]
  rfl

theorem sampleGo_one {u : Nat → Nat → ℚ} (hu : ∀ i j, u i j < 1) :
    ∀ (df : List Read) (i : Nat), (∀ r ∈ df, 0 < r.count) → sampleGo 1 u i df = df := by
  intro df
  induction df with
  | nil => intro i _; rfl
  | cons r rs ih =>
    intro i hc
    unfold sampleGo
    rw [binomialDraw_one (hu i) r.count]
    rw [if_neg (Nat.pos_iff_ne_zero.mp (hc r (List.mem_cons_self r rs)))]
    rw [ih (i + 1) (fun a ha => hc a (List.mem_cons_of_mem r ha))]

theorem sampleGo_zero {u : Nat → Nat → ℚ} (hu : ∀ i j, 0 ≤ u i j) :
    ∀ (df : List Read) (i : Nat), sampleGo 0 u i df = [] := by
  intro df
  induction df with
  | nil => intro i; rfl
  | cons r rs ih =>
    intro i
    unfold sampleGo
    rw [binomialDraw_zero (hu i) r.count]
    rw [if_pos rfl]
    exact ih (i + 1)

/-- C3 (amended): `sample_reads` at rate `1` keeps every read (with its count
unchanged) as long as the input counts are positive, and at rate `0` it drops
every read; however the pipeline stage guard `if self.sub_sample:` is a Python
truthiness test, so a configured rate of `0.0` makes `perform_view` skip the
sampler entirely and behave exactly as if no rate were configured. -/
theorem sample_rate_extremes (u : Nat → Nat → ℚ) (df : List Read) :
    ((∀ i j, u i j < 1) → (∀ r ∈ df, 0 < r.count) → sample_reads 1 u df = df) ∧
      ((∀ i j, 0 ≤ u i j) → sample_reads 0 u df = []) ∧
      (∀ (cfg : Config) (sites : Option (Int × Int)) (reads : List Read),
        cfg.subSample = some 0 →
        perform_view cfg sites u reads =
          perform_view { cfg with subSample := none } sites u reads) := by
  refine ⟨fun hu hc => sampleGo_one hu df 0 hc, fun hu => sampleGo_zero hu df 0, ?_⟩
  intro cfg sites reads hsub
  simp [perform_view, applySample, hsub]

/-- Witness for C3 (amended) at concrete inputs: rate `1` keeps the read,
rate `0` inside `sample_reads` drops it, and a configured rate of `0.0` makes
the pipeline behave as if unconfigured. -/
theorem sample_rate_extremes_witness :
    sample_reads 1 (fun _ _ => 1/2) [⟨"chr1", 3, ['C', 'T'], 4, []⟩] =
        [⟨"chr1", 3, ['C', 'T'], 4, []⟩] ∧
      sample_reads 0 (fun _ _ => 1/2) [⟨"chr1", 3, ['C', 'T'], 4, []⟩] = [] ∧
      perform_view ⟨false, false, 1, some 0⟩ (some (1, 10)) (fun _ _ => 1/2)
          [⟨"chr1", 3, ['C', 'T'], 4, []⟩] =
        perform_view ⟨false, false, 1, none⟩ (some (1, 10)) (fun _ _ => 1/2)
          [⟨"chr1", 3, ['C', 'T'], 4, []⟩] := by
  obtain ⟨h1, h2, h3⟩ :=
    sample_rate_extremes (fun _ _ => 1/2) [⟨"chr1", 3, ['C', 'T'], 4, []⟩]
  refine ⟨h1 (fun i j => by norm_num) (by decide), h2 (fun i j => by norm_num), ?_⟩
  exact h3 ⟨false, false, 1, some 0⟩ (some (1, 10)) [⟨"chr1", 3, ['C', 'T'], 4, []⟩] rfl

/-- Counterexample to C3 as stated: with a configured sub-sample rate of
`0.0` the claim demands that every read be dropped, but the stage guard
`if self.sub_sample:` is false for `0.0`, so the read survives with its
original count. -/
theorem sample_rate_zero_skipped_cex :
    perform_view ⟨false, false, 1, some 0⟩ (some (1, 10)) (fun _ _ => 1/2)
      [⟨"chr1", 3, ['C', 'T'], 4, []⟩] = .ok [⟨"chr1", 3, ['C', 'T'], 4, []⟩] := rfl

/-! ### Strict mode without a known interval -/

/-- C8 (amended): with `strict=true` and no interval, `perform_view` still
calls `strict_reads`, which fails unpacking `gr.sites` (unless the input frame
is empty, which returns early); with `strict=false` the missing interval means
no boundary filtering at all: no pre-filter, no trimming, and no failure. -/
theorem whole_genome_no_boundary_filtering (cfg : Config) (u : Nat → Nat → ℚ)
    (reads : List Read) :
    (cfg.strict = true → reads ≠ [] →
        perform_view cfg none u reads = .error strictNoneMsg) ∧
      (cfg.strict = false →
        perform_view cfg none u reads =
          .ok (applySample cfg.subSample u (applyMinLen cfg.minLen
            (applyStrip cfg.strip reads)))) := by
  constructor
  · intro hstrict hne
    unfold perform_view prefilter applyStrict
    rw [if_neg (by simpa [List.isEmpty_iff] using hne), hstrict]
    simp
  · intro hstrict
    unfold perform_view prefilter applyStrict
    by_cases hre : reads.isEmpty
    · rw [if_pos hre]
      have hnil : reads = [] := List.isEmpty_iff.mp hre
      subst hnil
      have e1 : applyStrip cfg.strip ([] : List Read) = [] := by
        unfold applyStrip strip_reads
        split_ifs <;> simp
      have e2 : applyMinLen cfg.minLen ([] : List Read) = [] := by
        unfold applyMinLen
        split_ifs <;> simp
      rw [e1, e2]
      have e3 : applySample cfg.subSample u ([] : List Read) = [] := by
        unfold applySample
        cases cfg.subSample with
        | none => rfl
        | some p =>
          show (if p = 0 then [] else sample_reads p u []) = []
          split_ifs <;> rfl
      rw [e3]
    · rw [if_neg hre, hstrict]
      simp

/-- Witness for C8 (amended): a one-read input errors under `strict=true` with
no interval, and passes through untouched under `strict=false`. -/
theorem whole_genome_no_boundary_filtering_witness :
    perform_view ⟨true, true, 3, some (1/2)⟩ none (fun _ _ => 0)
        [⟨"chr1", 5, ['T'], 1, []⟩] = .error strictNoneMsg ∧
      perform_view ⟨false, false, 1, none⟩ none (fun _ _ => 0)
        [⟨"chr1", 5, ['T'], 1, []⟩] = .ok [⟨"chr1", 5, ['T'], 1, []⟩] := by
  constructor
  · exact (whole_genome_no_boundary_filtering ⟨true, true, 3, some (1/2)⟩ (fun _ _ => 0)
      [⟨"chr1", 5, ['T'], 1, []⟩]).1 rfl (by simp)
  · exact (whole_genome_no_boundary_filtering ⟨false, false, 1, none⟩ (fun _ _ => 0)
      [⟨"chr1", 5, ['T'], 1, []⟩]).2 rfl

/-- Counterexample to C8 as stated: the claim requires that with `strict=true`
and a whole-genome request the pipeline process every read unmodified and not
fail, but `perform_view` raises the `NoneType` unpacking error on any
non-empty input. -/
theorem strict_whole_genome_fails_cex :
    perform_view ⟨true, false, 1, none⟩ none (fun _ _ => 0)
      [⟨"chr1", 5, ['T'], 1, []⟩] = .error strictNoneMsg := rfl

/-! ### Sampler stage preserves coordinates and order -/

theorem mem_sampleGo {p : ℚ} {u : Nat → Nat → ℚ} :
    ∀ {df : List Read} {i : Nat} {r : Read}, r ∈ sampleGo p u i df →
      ∃ r0 ∈ df, r.start = r0.start ∧ r.pat = r0.pat := by
  intro df
  induction df with
  | nil =>
    intro i r h
    simp [sampleGo] at h
  | cons a as ih =>
    intro i r h
    unfold sampleGo at h
    split_ifs at h with hc
    · obtain ⟨r0, hr0, he⟩ := ih h
      exact ⟨r0, List.mem_cons_of_mem a hr0, he⟩
    · rcases List.mem_cons.mp h with he | h2
      · subst he
        exact ⟨a, List.mem_cons_self a as, rfl, rfl⟩
      · obtain ⟨r0, hr0, he⟩ := ih h2
        exact ⟨r0, List.mem_cons_of_mem a hr0, he⟩

theorem pairwise_sampleGo {p : ℚ} {u : Nat → Nat → ℚ} :
    ∀ {df : List Read} {i : Nat}, List.Pairwise readLE df →
      List.Pairwise readLE (sampleGo p u i df) := by
  intro df
  induction df with
  | nil =>
    intro i _
    simp [sampleGo]
  | cons a as ih =>
    intro i h
    rw [List.pairwise_cons] at h
    obtain ⟨ha, has⟩ := h
    unfold sampleGo
    split_ifs with hc
    · exact ih has
    · rw [List.pairwise_cons]
      refine ⟨?_, ih has⟩
      intro b hb
      obtain ⟨r0, hr0, hs, hp⟩ := mem_sampleGo hb
      exact (readLE_congr (by simp) (by simp) hs hp).mpr (ha r0 hr0)

theorem mem_applySample {sub : Option ℚ} {u : Nat → Nat → ℚ} {df : List Read} {r : Read}
    (hr : r ∈ applySample sub u df) : ∃ r0 ∈ df, r.start = r0.start ∧ r.pat = r0.pat := by
  unfold applySample at hr
  cases sub with
  | none => exact ⟨r, hr, rfl, rfl⟩
  | some p =>
    revert hr
    show r ∈ (if p = 0 then df else sample_reads p u df) → _
    split_ifs with hp
    · intro hr
      exact ⟨r, hr, rfl, rfl⟩
    · intro hr
      exact mem_sampleGo hr

theorem sorted_applyMinLen {minLen : Nat} {df : List Read}
    (h : List.Sorted readLE df) : List.Sorted readLE (applyMinLen minLen df) := by
  unfold applyMinLen
  split_ifs
  · exact List.Pairwise.filter _ h
  · exact h

theorem sorted_applySample {sub : Option ℚ} {u : Nat → Nat → ℚ} {df : List Read}
    (h : List.Sorted readLE df) : List.Sorted readLE (applySample sub u df) := by
  unfold applySample
  cases sub with
  | none => exact h
  | some p =>
    show List.Sorted readLE (if p = 0 then df else sample_reads p u df)
    split_ifs
    · exact h
    · exact pairwise_sampleGo h

/-! ### Output order of the pipeline -/

/-- C5 (amended): whenever the `--strip` flag is set, the reads emitted by
`perform_view` are sorted by `(start ascending, pattern ascending)`: the sort
inside `strip_reads` is preserved by the later stages.  No other stage of
`perform_view` sorts, so without `--strip` the output keeps the source order
(the cview shell path, by contrast, always pipes a region's output through
`sort -k2,2n -k3,3`). -/
theorem perform_view_sorted_of_strip (cfg : Config) (sites : Option (Int × Int))
    (u : Nat → Nat → ℚ) (reads out : List Read)
    (hstrip : cfg.strip = true) (hok : perform_view cfg sites u reads = .ok out) :
    List.Sorted readLE out := by
  unfold perform_view at hok
  split_ifs at hok with hre
  · have hnil : ([] : List Read) = out := by injection hok
    rw [← hnil]
    exact List.sorted_nil
  · cases hstr : applyStrict cfg.strict sites (prefilter sites reads) with
    | error msg =>
      rw [hstr] at hok
      cases hok
    | ok df2 =>
      rw [hstr] at hok
      have hout : applySample cfg.subSample u (applyMinLen cfg.minLen
          (applyStrip cfg.strip df2)) = out := by injection hok
      rw [← hout]
      apply sorted_applySample
      apply sorted_applyMinLen
      have hstrip2 : applyStrip cfg.strip df2 = strip_reads df2 := by
        unfold applyStrip
        rw [hstrip]
        rfl
      rw [hstrip2]
      exact strip_reads_sorted df2

/-- Witness for C5 (amended): two same-start reads arriving in the order
`T`, `C` are emitted sorted as `C`, `T` when `--strip` is set. -/
theorem perform_view_sorted_of_strip_witness :
    perform_view ⟨false, true, 1, none⟩ (some (1, 100)) (fun _ _ => 0)
        [⟨"chr1", 5, ['T'], 1, []⟩, ⟨"chr1", 5, ['C'], 1, []⟩] =
      .ok [⟨"chr1", 5, ['C'], 1, []⟩, ⟨"chr1", 5, ['T'], 1, []⟩] ∧
      List.Sorted readLE [⟨"chr1", 5, ['C'], 1, []⟩, ⟨"chr1", 5, ['T'], 1, []⟩] :=
  ⟨rfl, perform_view_sorted_of_strip ⟨false, true, 1, none⟩ (some (1, 100)) (fun _ _ => 0)
    [⟨"chr1", 5, ['T'], 1, []⟩, ⟨"chr1", 5, ['C'], 1, []⟩]
    [⟨"chr1", 5, ['C'], 1, []⟩, ⟨"chr1", 5, ['T'], 1, []⟩] rfl rfl⟩

/-- Counterexample to C5 as stated: with `--strip` disabled (and all other
flags off) `perform_view` imposes no sort: two same-start reads arriving with
patterns `T`, `C` are emitted in that unsorted order, so the output ordering
is not identical regardless of flags. -/
theorem perform_view_unsorted_without_strip_cex :
    perform_view ⟨false, false, 1, none⟩ (some (1, 100)) (fun _ _ => 0)
        [⟨"chr1", 5, ['T'], 1, []⟩, ⟨"chr1", 5, ['C'], 1, []⟩] =
      .ok [⟨"chr1", 5, ['T'], 1, []⟩, ⟨"chr1", 5, ['C'], 1, []⟩] ∧
      ¬ List.Sorted readLE [⟨"chr1", 5, ['T'], 1, []⟩, ⟨"chr1", 5, ['C'], 1, []⟩] := by
  refine ⟨rfl, ?_⟩
  intro h
  have h2 := (List.sorted_cons.mp h).1 _ (List.mem_cons_self _ _)
  revert h2
  decide

/-! ### The minimum-length guarantee -/

/-- A read that overlaps the interval on the left (`start + len > s`), starts
before the interval end and has a non-empty pattern keeps a non-empty pattern
through `strictRead`. -/
theorem strictRead_pat_ne_nil {s e : Int} {r : Read} (hse : s < e) (hlt : r.start < e)
    (hne : r.pat ≠ []) (hov : s < r.start + (r.pat.length : Int)) :
    (strictRead s e r).pat ≠ [] := by
  have hlen : 0 < r.pat.length := List.length_pos.mpr hne
  unfold strictRead
  by_cases h1 : r.start < s
  · rw [if_pos h1]
    have hdroplen : 0 < (r.pat.drop (s - r.start).toNat).length := by
      rw [List.length_drop]
      omega
    by_cases h2 : (s : Int) + (((r.pat.drop (s - r.start).toNat)).length : Int) > e
    · rw [if_pos (by simpa using h2)]
      show (pySliceTo (e - s) (r.pat.drop (s - r.start).toNat)) ≠ []
      rw [pySliceTo_of_nonneg (by omega)]
      intro hnil
      rcases List.take_eq_nil_iff.mp hnil with h | h
      · omega
      · rw [h] at hdroplen
        simp at hdroplen
    · rw [if_neg (by simpa using h2)]
      exact List.ne_nil_of_length_pos hdroplen
  · rw [if_neg h1]
    by_cases h2 : r.start + ((r.pat.length : Int)) > e
    · rw [if_pos h2]
      show (pySliceTo (e - r.start) r.pat) ≠ []
      rw [pySliceTo_of_nonneg (by omega)]
      intro hnil
      rcases List.take_eq_nil_iff.mp hnil with h | h
      · omega
      · exact hne h
    · rw [if_neg h2]
      exact hne

/-- C7: for every configuration with `minLen ≥ 1`, a valid interval `s < e`,
and inputs satisfying the range-query contract (every read starts before `e`,
as tabix stops at position `e - 1`) and the pat-format invariant (non-empty
patterns), every read emitted by `perform_view` has pattern length at least
`minLen`; in particular no read is ever clipped to a zero-length pattern and
emitted. -/
theorem perform_view_min_len (cfg : Config) (s e : Int) (u : Nat → Nat → ℚ)
    (reads out : List Read) (hmin : 1 ≤ cfg.minLen) (hse : s < e)
    (hstart : ∀ r ∈ reads, r.start < e) (hpat : ∀ r ∈ reads, r.pat ≠ [])
    (hok : perform_view cfg (some (s, e)) u reads = .ok out) :
    ∀ r ∈ out, cfg.minLen ≤ r.pat.length := by
  unfold perform_view at hok
  split_ifs at hok with hre
  · have hnil : ([] : List Read) = out := by injection hok
    rw [← hnil]
    simp
  · have hdf1mem : ∀ r ∈ prefilter (some (s, e)) reads,
        r ∈ reads ∧ s < r.start + (r.pat.length : Int) := by
      intro r hr
      unfold prefilter at hr
      have h := List.mem_filter.mp hr
      exact ⟨h.1, by simpa using h.2⟩
    cases hstr : applyStrict cfg.strict (some (s, e)) (prefilter (some (s, e)) reads) with
    | error msg =>
      rw [hstr] at hok
      cases hok
    | ok df2 =>
      rw [hstr] at hok
      have hout : applySample cfg.subSample u (applyMinLen cfg.minLen
          (applyStrip cfg.strip df2)) = out := by injection hok
      have hdf2 : ∀ r ∈ df2, r.pat ≠ [] := by
        unfold applyStrict at hstr
        split_ifs at hstr with hb
        · have hdf2e : strict_reads s e (prefilter (some (s, e)) reads) = df2 := by
            injection hstr
          intro r hr
          rw [← hdf2e] at hr
          obtain ⟨r0, hr0, hre2⟩ := List.mem_map.mp hr
          subst hre2
          obtain ⟨h01, h02⟩ := hdf1mem r0 hr0
          exact strictRead_pat_ne_nil hse (hstart r0 h01) (hpat r0 h01) h02
        · have hdf2e : prefilter (some (s, e)) reads = df2 := by injection hstr
          intro r hr
          rw [← hdf2e] at hr
          exact hpat r (hdf1mem r hr).1
      have hdf3 : ∀ r ∈ applyStrip cfg.strip df2, r.pat ≠ [] := by
        unfold applyStrip
        split_ifs
        · intro r hr
          exact (mem_strip_reads_shape hr).1
        · exact hdf2
      have hdf4 : ∀ r ∈ applyMinLen cfg.minLen (applyStrip cfg.strip df2),
          cfg.minLen ≤ r.pat.length := by
        unfold applyMinLen
        split_ifs with hm
        · intro r hr
          have h := List.mem_filter.mp hr
          simpa using h.2
        · intro r hr
          have hlen : 1 ≤ r.pat.length := List.length_pos.mpr (hdf3 r hr)
          omega
      intro r hr
      rw [← hout] at hr
      obtain ⟨r0, hr0, _, hp⟩ := mem_applySample hr
      rw [hp]
      exact hdf4 r0 hr0

/-- Witness for C7, the spec scenario: `chr1 100 CC.T 5` against `[101, 103)`
under strict mode is emitted as `chr1 101 C. 5`, of length `2 ≥ minLen = 1`. -/
theorem perform_view_min_len_witness :
    (1 : Nat) ≤ (⟨"chr1", 101, ['C', '.'], 5, []⟩ : Read).pat.length :=
  perform_view_min_len ⟨true, false, 1, none⟩ 101 103 (fun _ _ => 0)
    [⟨"chr1", 100, ['C', 'C', '.', 'T'], 5, []⟩] [⟨"chr1", 101, ['C', '.'], 5, []⟩]
    (by decide) (by decide) (by decide) (by decide) rfl
    ⟨"chr1", 101, ['C', '.'], 5, []⟩ (List.mem_cons_self _ _)

/-! ### The multi-region driver -/

theorem chunksOf_flatten {α : Type*} (step : Nat) (l : List α) :
    (chunksOf step l).flatten = l := by
  have key : ∀ (n : Nat) (l : List α), l.length ≤ n → (chunksOf step l).flatten = l := by
    intro n
    induction n with
    | zero =>
      intro l hl
      have hnil : l = [] := List.eq_nil_of_length_eq_zero (Nat.le_zero.mp hl)
      subst hnil
      rw [chunksOf]
      simp
    | succ n ih =>
      intro l hl
      rw [chunksOf]
      by_cases he : l.isEmpty
      · rw [if_pos he]
        simp [List.isEmpty_iff.mp he]
      · rw [if_neg he]
        have hne : l ≠ [] := by simpa [List.isEmpty_iff] using he
        have hpos : 0 < l.length := List.length_pos.mpr hne
        have hmax : 1 ≤ max 1 step := le_max_left _ _
        rw [List.flatten_cons]
        rw [ih (l.drop (max 1 step)) (by rw [List.length_drop]; omega)]
        exact List.take_append_drop _ l
  exact key l.length l le_rfl

theorem rangeStep_flatMap_drop {α : Type*} (k : Nat) (hk : 1 ≤ k) (l : List α) :
    ∀ i, ((rangeStep i l.length k).flatMap (fun j => (l.drop j).take k)) = l.drop i := by
  have hmax : max 1 k = k := Nat.max_eq_right hk
  have key : ∀ (m i : Nat), l.length - i ≤ m →
      ((rangeStep i l.length k).flatMap (fun j => (l.drop j).take k)) = l.drop i := by
    intro m
    induction m with
    | zero =>
      intro i hi
      have hile : l.length ≤ i := by omega
      rw [rangeStep, if_neg (by omega)]
      simp [List.drop_eq_nil_of_le hile]
    | succ m ih =>
      intro i hi
      by_cases hlt : i < l.length
      · rw [rangeStep, if_pos hlt, hmax]
        rw [List.flatMap_cons]
        rw [ih (i + k) (by omega)]
        exact List.drop_take_append_drop l i k
      · rw [rangeStep, if_neg hlt]
        simp [List.drop_eq_nil_of_le (not_lt.mp hlt)]
  intro i
  exact key (l.length - i) i le_rfl

/-- The driver's chunked, sliced task decomposition reassembles to the plain
per-region map, in input order. -/
theorem driverResults_eq (process : String → Option (List Read)) (regions : List String)
    (W : Nat) : driverResults process regions W = regions.map (fun g => (g, process g)) := by
  unfold driverResults view_pat_mult_proc
  have inner : ∀ (chunk : List String),
      (rangeStep 0 chunk.length (max 1 (chunk.length / W))).flatMap
          (fun i => ((chunk.drop i).take (max 1 (chunk.length / W))).map
            (fun g => (g, process g))) =
        chunk.map (fun g => (g, process g)) := by
    intro chunk
    rw [← List.map_flatMap]
    rw [rangeStep_flatMap_drop _ (le_max_left _ _) chunk 0]
    rw [List.drop_zero]
  rw [List.flatMap_congr (fun c _ => inner c)]
  rw [List.flatMap_def]
  rw [show (List.map (fun c : List String => c.map (fun g => (g, process g)))
       (chunksOf 100 regions)) =
      List.map (List.map (fun g => (g, process g))) (chunksOf 100 regions) from rfl]
  rw [← List.map_flatten, chunksOf_flatten]

/-- C6: for every positive worker count, the merged per-region results of
`view_pat_bed_multiprocess` appear in the original input region order: the
result list is exactly the input list mapped through the per-region pipeline,
so the region sequence of the merged output equals the input sequence.  The
embedding reads worker results in submission order, as the code does
(`processes.append(...)` and iteration over `processes`), which is what makes
the output independent of worker completion order. -/
theorem driver_preserves_region_order (process : String → Option (List Read))
    (regions : List String) (W : Nat) (_hW : 0 < W) :
    driverResults process regions W = regions.map (fun g => (g, process g)) ∧
      (driverResults process regions W).map Prod.fst = regions := by
  refine ⟨driverResults_eq process regions W, ?_⟩
  rw [driverResults_eq process regions W, List.map_map]
  have hcomp : (Prod.fst ∘ fun g : String => (g, process g)) = id := rfl
  rw [hcomp, List.map_id]

/-- Witness for C6: three regions, two workers. -/
theorem driver_preserves_region_order_witness :
    (0 : Nat) < 2 ∧
      driverResults (fun g => some ([⟨g, 1, ['C'], 1, []⟩] : List Read)) ["a", "b", "c"] 2 =
        [("a", some [⟨"a", 1, ['C'], 1, []⟩]), ("b", some [⟨"b", 1, ['C'], 1, []⟩]),
          ("c", some [⟨"c", 1, ['C'], 1, []⟩])] ∧
      (driverResults (fun g => some ([⟨g, 1, ['C'], 1, []⟩] : List Read))
        ["a", "b", "c"] 2).map Prod.fst = ["a", "b", "c"] := by
  have h := driver_preserves_region_order (fun g => some ([⟨g, 1, ['C'], 1, []⟩] : List Read))
    ["a", "b", "c"] 2 (by decide)
  exact ⟨by decide, h.1.trans (by rfl), h.2⟩

/-! ### The no-data marker -/

/-- C9 (amended): a region whose query reports no CpGs is recorded in the
worker result with the explicit marker label and an empty output block; the
marker line reaches the merged output only when `--print_region` is set —
with the flag off the region contributes nothing at all. -/
theorem no_cpg_marker_recorded (process : String → Option (List Read))
    (regions : List String) (W : Nat) (g : String)
    (_hW : 0 < W) (hg : g ∈ regions) (hn : process g = none) :
    (g, (none : Option (List Read))) ∈ driverResults process regions W ∧
      entryOutput true (g, (none : Option (List Read))) = g ++ " - No CpGs" ++ "\n" ∧
      entryOutput false (g, (none : Option (List Read))) = "" := by
  refine ⟨?_, ?_, rfl⟩
  · rw [driverResults_eq, ← hn]
    exact List.mem_map_of_mem _ hg
  · show (regionLabel (g, none) ++ "\n") ++ "" = g ++ " - No CpGs" ++ "\n"
    simp [regionLabel]

/-- Witness for C9 (amended). -/
theorem no_cpg_marker_recorded_witness :
    ("chr1:1-100", (none : Option (List Read))) ∈
        driverResults (fun _ => none) ["chr1:1-100"] 1 ∧
      entryOutput true ("chr1:1-100", (none : Option (List Read))) =
        "chr1:1-100" ++ " - No CpGs" ++ "\n" ∧
      entryOutput false ("chr1:1-100", (none : Option (List Read))) = "" :=
  no_cpg_marker_recorded (fun _ => none) ["chr1:1-100"] 1 "chr1:1-100" (by decide)
    (List.mem_singleton.mpr rfl) rfl

/-- Counterexample to C9 as stated: without `--print_region`, a bed file with
a single region that matches no CpGs produces a completely empty merged
output — the region is silently skipped, no marker line appears. -/
theorem no_cpg_marker_skipped_cex :
    view_pat_bed_multiprocess (fun _ => none) ["chr1:1-100"] 1 false = "" := by
  rw [view_pat_bed_multiprocess, driverResults_eq]
  rfl

/-! ### The tabix query span -/

/-- C10: for a known region, the range query of `build_cmd` spans exactly the
positions from `max 1 (s - MAX_PAT_LEN)` (the left bound widened by the
maximal read length and clamped below at 1) through `e - 1` inclusive, i.e.
every position strictly below `e`; position `e` itself is never queried. -/
theorem build_cmd_query_span (mpl s e p : Int) (c : String) :
    (inSpan (build_cmd mpl (some (c, s, e))) p ↔ max 1 (s - mpl) ≤ p ∧ p < e) ∧
      ¬ inSpan (build_cmd mpl (some (c, s, e))) e ∧
      build_cmd mpl (some (c, s, e)) = .range c (max 1 (s - mpl)) (e - 1) ∧
      build_cmd mpl (none : Option (String × Int × Int)) = .wholeFile := by
  refine ⟨?_, ?_, rfl, rfl⟩
  · show (max 1 (s - mpl) ≤ p ∧ p ≤ e - 1) ↔ max 1 (s - mpl) ≤ p ∧ p < e
    omega
  · show ¬ (max 1 (s - mpl) ≤ e ∧ e ≤ e - 1)
    omega

end WgbsView
